/-
Verification of the Aurora monitor (aurora.py, clock.py).

Shallow embedding conventions:
  * wall-clock time is passed explicitly as an `Int` argument (`now`);
  * Python `dict`s become association lists with insertion-order update
    semantics (`updateAssoc`);
  * fallible operations return `Option` / `Except`;
  * the K-index value (a Python float) is modelled as `ℚ`; threshold levels
    are `ℤ` as in the source tables;
  * scheduler callbacks are modelled as state transformers `σ → σ × ρ`
    (in the program they are closures mutating the `Aurora` object).
-/
import Mathlib

namespace Aurora

/-- The supported message languages (keys of the threshold tables). -/
inductive Language where
  | pl
  | en
deriving DecidableEq

/-- AURORA_LEVELS from aurora.py: per-language descending threshold tables. -/
def AURORA_LEVELS : Language → List (Int × String)
  | .pl =>
    [(90, "Lokalnie: 90. Masz ją nad głową!"),
     (80, "Lokalnie: 80. Ogromna szansa!"),
     (70, "Lokalnie: 70. Bardzo duża szansa."),
     (50, "Lokalnie: 50. Może coś się pojawi. Wypatruj."),
     (30, "Lokalnie: 30. Jeżeli będziesz mieć bardzo dużo szczęścia")]
  | .en =>
    [(90, "Locally: 90. You have it on your head!"),
     (80, "Locally: 80. Very likely!"),
     (70, "Locally: 70. Very likely."),
     (50, "Locally: 50. Something might happen. Take a break."),
     (30, "Locally: 30. If you have a lot of happiness")]

/-- K_INDEX_LEVELS from aurora.py. -/
def K_INDEX_LEVELS : Language → List (Int × String)
  | .pl =>
    [(9, "Globalnie: 9. Musisz ją widzieć!"),
     (8, "Globalnie: 8. Duża szansa!"),
     (7, "Globalnie: 7. Dzisiaj jest spora szansa."),
     (6, "Globalnie: 6. Dzisiaj jest szansa."),
     (5, "Globalnie: 5. Jakaś tam szansa dzisiaj jest.")]
  | .en =>
    [(9, "Globally: 9. You have to see it!"),
     (8, "Globally: 8. Very likely!"),
     (7, "Globally: 7. There is a lot of chance today."),
     (6, "Globally: 6. There is a chance today."),
     (5, "Globally: 5. There might be a chance today.")]

/-- Timing constants from aurora.py. -/
def SECOND : Int := 1

def MINUTE : Int := 60

def HOUR : Int := 3600

def SEND_DELAY : Int := HOUR

def SEND_DELAY_DAY : Int := 4 * HOUR

def CHECK_DELAY : Int := MINUTE

def CHECK_EVENT : Int := 1

def RESET_EVENT : Int := 2

/--
Aurora._get_message_from_levels: walk the threshold list in order; on the
first entry with `current_value >= level > last_level`, store that level and
return its message.  The Python method mutates `self.<last_level_var>`; here
the updated level is the first component of the result.
-/
def getMessageFromLevels (currentValue : ℚ) (thresholds : List (Int × String))
    (lastLevel : Int) : Int × Option String :=
  match thresholds with
  | [] => (lastLevel, none)
  | (level, message) :: rest =>
    if currentValue ≥ (level : ℚ) ∧ lastLevel < level then
      (level, some message)
    else
      getMessageFromLevels currentValue rest lastLevel

/--
Python-dict style association-list update: if the key is present, replace the
value of its (first) entry in place; otherwise append a new entry at the end.
This mirrors `d[k] = v` on a `dict` whose iteration order is insertion order.
-/
def updateAssoc {κ ν : Type} [DecidableEq κ] :
    List (κ × ν) → κ → ν → List (κ × ν)
  | [], k, v => [(k, v)]
  | (k', v') :: rest, k, v =>
    if k' = k then (k, v) :: rest else (k', v') :: updateAssoc rest k v

/-- One scheduled event of clock.py: `{'timer': ..., 'function': ..., 'delay': ...}`. -/
structure Event (σ ρ : Type) where
  timer : Int
  function : σ → σ × ρ
  delay : Int

/-- The Clock of clock.py: a dict from event id to event data. -/
structure Clock (σ ρ : Type) where
  events : List (Int × Event σ ρ)

variable {σ ρ : Type}

/-- `Clock.__init__`: an empty event dict. -/
def Clock.init : Clock σ ρ := ⟨[]⟩

/--
Clock._calculate_next_execution_time: `now + delay` when the delay is
positive, otherwise `0` (the inactive timer value).
-/
def calculateNextExecutionTime (now delay : Int) : Int :=
  if delay > 0 then now + delay else 0

/-- Clock.add: register (or overwrite) an event with its next execution time. -/
def Clock.add (c : Clock σ ρ) (now : Int) (event : Int)
    (callback : σ → σ × ρ) (delay : Int) : Clock σ ρ :=
  let next_execution_time := calculateNextExecutionTime now delay
  ⟨updateAssoc c.events event
    { timer := next_execution_time, function := callback, delay := delay }⟩

/--
Clock.set: update delay and timer of an existing event.  Accessing
`self.events[event]` for an unregistered id raises `KeyError` in Python,
modelled by `none`.
-/
def Clock.set (c : Clock σ ρ) (now : Int) (event : Int) (delay : Int) :
    Option (Clock σ ρ) :=
  let next_execution_time := calculateNextExecutionTime now delay
  match c.events.lookup event with
  | none => none
  | some ev =>
    some ⟨updateAssoc c.events event
      { ev with delay := delay, timer := next_execution_time }⟩

/-- Clock.remove: `self.events.pop(event, None)` — drop the entry if present. -/
def Clock.remove (c : Clock σ ρ) (event : Int) : Clock σ ρ :=
  ⟨c.events.eraseP (fun p => p.1 == event)⟩

/--
The loop body of Clock.make_step over the event dict: for each event whose
timer satisfies `0 < timer < current_time`, invoke its callback (threading the
external state `σ` the Python closures mutate), record its result under its
id, and rearm its timer to `current_time + delay`.
-/
def makeStepEvents (now : Int) :
    List (Int × Event σ ρ) → σ → List (Int × Event σ ρ) × σ × List (Int × ρ)
  | [], s => ([], s, [])
  | (event_id, event_data) :: rest, s =>
    if 0 < event_data.timer ∧ event_data.timer < now then
      let (s', r) := event_data.function s
      let (rest', s'', results) := makeStepEvents now rest s'
      ((event_id, { event_data with timer := now + event_data.delay }) :: rest',
       s'', (event_id, r) :: results)
    else
      let (rest', s', results) := makeStepEvents now rest s
      ((event_id, event_data) :: rest', s', results)

/--
Clock.make_step: execute all due events once and return the updated clock,
the threaded external state, and the results dict (as an ordered list).
-/
def Clock.make_step (c : Clock σ ρ) (now : Int) (s : σ) :
    Clock σ ρ × σ × List (Int × ρ) :=
  let (events', s', results) := makeStepEvents now c.events s
  (⟨events'⟩, s', results)

/--
A driver that repeatedly advances the clock at the given sequence of
current-time values, collecting the results of every step (the `while True`
loop of start_loop, with time made explicit).
-/
def advanceTimes (c : Clock σ ρ) (s : σ) :
    List Int → Clock σ ρ × σ × List (List (Int × ρ))
  | [] => (c, s, [])
  | t :: ts =>
    let (c', s', res) := c.make_step t s
    let (c'', s'', ress) := advanceTimes c' s' ts
    (c'', s'', res :: ress)

/-- The mutable state of an `Aurora` instance (aurora.py `__init__`). -/
structure AuroraState where
  api_key : String
  user_key : String
  latitude : Int
  longitude : Int
  language : Language
  is_day : Bool
  last_send_time : Int
  last_k_level : Int
  last_aurora_level : Int
deriving DecidableEq

/-- Errors raised inside a check cycle. -/
inductive AuroraError where
  /-- `ConnectionError`: a data source or the push sink returned a failure. -/
  | connectionError
  /-- `ValueError("No aurora data available.")` from `_process_aurora_data`. -/
  | noAuroraData
  /-- `IndexError` from `response.json()[-1]` on an empty K-index list. -/
  | indexError
deriving DecidableEq

/-- Lexicographic order on coordinate keys, as Python `sorted` orders tuples. -/
def coordKeyLe (a b : (Int × Int) × Int) : Prop :=
  a.1.1 < b.1.1 ∨ (a.1.1 = b.1.1 ∧ a.1.2 ≤ b.1.2)

instance : DecidableRel coordKeyLe := fun a b => by
  unfold coordKeyLe; infer_instance

/--
Aurora._process_aurora_data: build the `(lon, lat) ↦ aurora` dict from the
coordinate triples (`data.get('coordinates', [])`; later duplicates
overwrite), raise `ValueError` if it is empty, and return it sorted by key.
-/
def process_aurora_data (coordinatesField : Option (List (Int × Int × Int))) :
    Except AuroraError (List ((Int × Int) × Int)) :=
  let coordinates := (coordinatesField.getD []).foldl
    (fun acc t => updateAssoc acc (t.1, t.2.1) t.2.2) []
  if coordinates.isEmpty then
    .error .noAuroraData
  else
    .ok (coordinates.insertionSort coordKeyLe)

/--
Aurora._evaluate_aurora_level, with the downloaded JSON payload passed in:
process the coordinates, read the local intensity at the configured
`(longitude, latitude)` key (defaulting to 0 on a miss), and evaluate it
against the aurora threshold table, updating `last_aurora_level`.
-/
def evaluate_aurora_level (st : AuroraState)
    (payload : Option (List (Int × Int × Int))) :
    Except AuroraError (AuroraState × Option String) :=
  match process_aurora_data payload with
  | .error e => .error e
  | .ok coordinates =>
    let local_level : Int :=
      (coordinates.lookup (st.longitude, st.latitude)).getD 0
    let (newLevel, msg) :=
      getMessageFromLevels (local_level : ℚ) (AURORA_LEVELS st.language)
        st.last_aurora_level
    .ok ({ st with last_aurora_level := newLevel }, msg)

/--
Aurora._download_k_index_data, with the HTTP outcome passed in: a failed
request raises `ConnectionError`; otherwise the last entry of the returned
list is taken (raising `IndexError` when the list is empty, as `[-1]` does),
its time tag normalised (`'T' → ' '`) and its Kp value returned.
-/
def download_k_index_data (response : Except Unit (List (String × ℚ))) :
    Except AuroraError (String × ℚ) :=
  match response with
  | .error _ => .error .connectionError
  | .ok data =>
    match data.getLast? with
    | none => .error .indexError
    | some (time_tag, kp_index) =>
      .ok (time_tag.replace "T" " ", kp_index)

/--
Aurora._evaluate_k_index_level: download the K-index data and evaluate the
Kp value against the K-index threshold table, updating `last_k_level`.
-/
def evaluate_k_index_level (st : AuroraState)
    (response : Except Unit (List (String × ℚ))) :
    Except AuroraError (AuroraState × Option String) :=
  match download_k_index_data response with
  | .error e => .error e
  | .ok (_k_time, k_index) =>
    let (newLevel, msg) :=
      getMessageFromLevels k_index (K_INDEX_LEVELS st.language) st.last_k_level
    .ok ({ st with last_k_level := newLevel }, msg)

/--
Aurora.check, with the two HTTP downloads and the push outcome passed in.
Returns the state after the call (including mutations made before an
exception), the outcome (`.error` = the exception that propagated, `.ok` =
the returned message), and whether `send_push` was invoked.  On a successful
push `last_send_time` is set to the clock time (`send_push`).
-/
def check (st : AuroraState)
    (auroraDownload : Except Unit (Option (List (Int × Int × Int))))
    (kResponse : Except Unit (List (String × ℚ)))
    (pushOk : Bool) (now : Int) :
    AuroraState × Except AuroraError String × Bool :=
  match auroraDownload with
  | .error _ => (st, .error .connectionError, false)
  | .ok payload =>
    match evaluate_aurora_level st payload with
    | .error e => (st, .error e, false)
    | .ok (st1, aurora_result) =>
      match evaluate_k_index_level st1 kResponse with
      | .error e => (st1, .error e, false)
      | .ok (st2, k_index_result) =>
        let message := String.intercalate "\n"
          (([aurora_result, k_index_result].filterMap id).filter
            (fun m => m ≠ ""))
        if message ≠ "" then
          if pushOk then
            ({ st2 with last_send_time := now }, .ok message, true)
          else
            (st2, .error .connectionError, true)
        else
          (st2, .ok message, false)

/-- Aurora.reset: zero both tracked levels. -/
def reset (st : AuroraState) : AuroraState :=
  { st with last_aurora_level := 0, last_k_level := 0 }

/--
Aurora.update_daytime_delay, with the day/night boolean passed in (in the
source it is the wall-clock property `is_daytime`).  When it differs from the
cached `is_day`, the cache is updated first and then the reset event is
re-armed; a `KeyError` from `Clock.set` (unregistered event) is modelled by
`none` in the clock component, the `is_day` mutation being retained.
-/
def update_daytime_delay (st : AuroraState) (clock : Clock σ ρ)
    (isDaytime : Bool) (now : Int) : AuroraState × Option (Clock σ ρ) :=
  if isDaytime ≠ st.is_day then
    let st' := { st with is_day := isDaytime }
    let delay := if st'.is_day then SEND_DELAY_DAY else SEND_DELAY
    (st', clock.set now RESET_EVENT delay)
  else
    (st, some clock)

/-! ### Helper lemmas about the threshold scan -/

/-- The stored level never decreases in one scan. -/
theorem gmfl_fst_ge (v : ℚ) (tbl : List (Int × String)) (l : Int) :
    l ≤ (getMessageFromLevels v tbl l).1 := by
  induction tbl with
  | nil => simp [getMessageFromLevels]
  | cons hd tl ih =>
    obtain ⟨level, message⟩ := hd
    simp only [getMessageFromLevels]
    split
    · next h => exact le_of_lt h.2
    · exact ih

/-- A scan that emits a message strictly raises the stored level, the current
value reaches the emitted level, and the emitted entry is in the table. -/
theorem gmfl_some_gt (v : ℚ) (tbl : List (Int × String)) (l lv : Int)
    (m : String) (h : getMessageFromLevels v tbl l = (lv, some m)) :
    l < lv ∧ (lv : ℚ) ≤ v ∧ (lv, m) ∈ tbl := by
  induction tbl with
  | nil => simp [getMessageFromLevels] at h
  | cons hd tl ih =>
    obtain ⟨level, message⟩ := hd
    simp only [getMessageFromLevels] at h
    split at h
    · next hc =>
      obtain ⟨h1, h2⟩ := Prod.mk.injEq .. ▸ h
      obtain rfl := h1
      obtain rfl : message = m := Option.some.inj h2
      exact ⟨hc.2, hc.1, List.mem_cons_self _ _⟩
    · obtain ⟨ha, hb, hm⟩ := ih h
      exact ⟨ha, hb, List.mem_cons_of_mem _ hm⟩

/-- If the current value does not reach any level above the stored one, the
scan changes nothing and emits nothing. -/
theorem gmfl_none_of_not_reach (v : ℚ) (tbl : List (Int × String)) (l : Int)
    (h : ∀ p ∈ tbl, l < p.1 → v < (p.1 : ℚ)) :
    getMessageFromLevels v tbl l = (l, none) := by
  induction tbl with
  | nil => rfl
  | cons hd tl ih =>
    obtain ⟨level, message⟩ := hd
    simp only [getMessageFromLevels]
    rw [if_neg, ih]
    · intro p hp hl
      exact h p (List.mem_cons_of_mem _ hp) hl
    · rintro ⟨hge, hlt⟩
      exact absurd hge (not_le.mpr (h (level, message) (List.mem_cons_self _ _) hlt))

/-- A scan that emits nothing leaves the stored level unchanged. -/
theorem gmfl_none_fst (v : ℚ) (tbl : List (Int × String)) (l : Int)
    (h : (getMessageFromLevels v tbl l).2 = none) :
    (getMessageFromLevels v tbl l).1 = l := by
  induction tbl with
  | nil => rfl
  | cons hd tl ih =>
    obtain ⟨level, message⟩ := hd
    simp only [getMessageFromLevels] at h ⊢
    split at h
    · simp at h
    · next hc => rw [if_neg hc] at *; exact ih h

/-- On a strictly descending table, a scan that just emitted leaves nothing
to emit when repeated with the same current value. -/
theorem gmfl_repeat_none (v : ℚ) (tbl : List (Int × String)) (l lv : Int)
    (m : String) (hsorted : tbl.Pairwise (fun a b => b.1 < a.1))
    (h : getMessageFromLevels v tbl l = (lv, some m)) :
    (getMessageFromLevels v tbl lv).2 = none := by
  induction tbl with
  | nil => simp [getMessageFromLevels] at h
  | cons hd tl ih =>
    obtain ⟨level, message⟩ := hd
    rw [List.pairwise_cons] at hsorted
    obtain ⟨hhd, htl⟩ := hsorted
    simp only [getMessageFromLevels] at h ⊢
    by_cases hc : v ≥ (level : ℚ) ∧ l < level
    · rw [if_pos hc] at h
      obtain ⟨h1, _⟩ := Prod.mk.injEq .. ▸ h
      obtain rfl := h1
      rw [if_neg (by rintro ⟨_, hlt⟩; exact lt_irrefl _ hlt)]
      rw [gmfl_none_of_not_reach]
      intro p hp hl
      exact absurd (hhd p hp) (not_lt.mpr (le_of_lt hl))
    · rw [if_neg hc] at h
      have hllv : l < lv := (gmfl_some_gt v tl l lv m h).1
      rw [if_neg]
      · exact ih htl h
      · rintro ⟨hge, hlt⟩
        rcases not_and_or.mp hc with hnge | hnlt
        · exact hnge hge
        · exact hnlt (lt_trans hllv hlt)

/-- The threshold scan returns the first qualifying entry of the table. -/
theorem gmfl_eq_find (v : ℚ) (tbl : List (Int × String)) (l : Int) :
    getMessageFromLevels v tbl l =
      match tbl.find? (fun p => decide (v ≥ (p.1 : ℚ) ∧ l < p.1)) with
      | some (lv, m) => (lv, some m)
      | none => (l, none) := by
  induction tbl with
  | nil => rfl
  | cons hd tl ih =>
    obtain ⟨level, message⟩ := hd
    simp only [getMessageFromLevels, List.find?]
    by_cases hc : v ≥ (level : ℚ) ∧ l < level
    · rw [if_pos hc, decide_eq_true hc]
    · rw [if_neg hc, decide_eq_false hc, ih]

/-- Both threshold tables are strictly descending in every language. -/
theorem tables_sorted (lang : Language) :
    (AURORA_LEVELS lang).Pairwise (fun a b => b.1 < a.1) ∧
    (K_INDEX_LEVELS lang).Pairwise (fun a b => b.1 < a.1) := by
  cases lang <;> exact ⟨by decide, by decide⟩

/-- All aurora threshold levels are strictly positive. -/
theorem aurora_levels_pos (lang : Language) :
    ∀ p ∈ AURORA_LEVELS lang, 0 < p.1 := by
  cases lang <;> decide

/-- The stored level after a sequence of scans with the given current values
(the state evolution of repeated checks). -/
def runChecks (tbl : List (Int × String)) (l : Int) (vs : List ℚ) : Int :=
  vs.foldl (fun cur v => (getMessageFromLevels v tbl cur).1) l

/-! ### Claim theorems -/

/--
C1. Threshold evaluation: the tables are scanned in descending order of level
(both tables are strictly descending in both languages), the scan returns the
first entry whose level is ≤ the current value and strictly greater than the
stored last level, updating the stored level to that entry's level and
returning its message; when no entry qualifies the stored level is unchanged
and no message is returned.  In particular, with the English aurora table,
last level 0 and current value 55, exactly the level-50 message is returned
and the stored level becomes 50.
-/
theorem C1_threshold_evaluation :
    (∀ lang, (AURORA_LEVELS lang).Pairwise (fun a b => b.1 < a.1) ∧
             (K_INDEX_LEVELS lang).Pairwise (fun a b => b.1 < a.1)) ∧
    (∀ (v : ℚ) (tbl : List (Int × String)) (l : Int),
       getMessageFromLevels v tbl l =
         match tbl.find? (fun p => decide (v ≥ (p.1 : ℚ) ∧ l < p.1)) with
         | some (lv, m) => (lv, some m)
         | none => (l, none)) ∧
    getMessageFromLevels 55 (AURORA_LEVELS .en) 0
      = (50, some "Locally: 50. Something might happen. Take a break.") :=
  ⟨tables_sorted, gmfl_eq_find, by decide⟩

/--
C2. Monotonicity invariant: one scan never lowers the stored level; across
any sequence of checks the stored level is monotonically non-decreasing; an
emitted message always belongs to a level strictly above the stored one (so
no level ≤ the stored last level is ever re-emitted); and on a strictly
descending table, repeating the same input value right after an emission
emits nothing.
-/
theorem C2_monotone_no_refire :
    (∀ (v : ℚ) (tbl : List (Int × String)) (l : Int),
       l ≤ (getMessageFromLevels v tbl l).1) ∧
    (∀ (tbl : List (Int × String)) (l : Int) (vs : List ℚ),
       l ≤ runChecks tbl l vs) ∧
    (∀ (v : ℚ) (tbl : List (Int × String)) (l lv : Int) (m : String),
       getMessageFromLevels v tbl l = (lv, some m) → l < lv) ∧
    (∀ (v : ℚ) (tbl : List (Int × String)) (l : Int),
       (∀ p ∈ tbl, l < p.1 → v < (p.1 : ℚ)) →
       getMessageFromLevels v tbl l = (l, none)) ∧
    (∀ (v : ℚ) (tbl : List (Int × String)) (l lv : Int) (m : String),
       tbl.Pairwise (fun a b => b.1 < a.1) →
       getMessageFromLevels v tbl l = (lv, some m) →
       (getMessageFromLevels v tbl lv).2 = none) := by
  refine ⟨gmfl_fst_ge, ?_, ?_, gmfl_none_of_not_reach, ?_⟩
  · intro tbl l vs
    induction vs generalizing l with
    | nil => exact le_refl l
    | cons v vs ih =>
      exact le_trans (gmfl_fst_ge v tbl l) (ih _)
  · intro v tbl l lv m h
    exact (gmfl_some_gt v tbl l lv m h).1
  · intro v tbl l lv m hs h
    exact gmfl_repeat_none v tbl l lv m hs h

/-- Witness for C2: on the English aurora table, the scan at value 55 from
level 0 emits the 50-message and a repeated scan at the new level emits
nothing. -/
theorem C2_monotone_no_refire_witness :
    (getMessageFromLevels 55 (AURORA_LEVELS .en) 50).2 = none ∧ (0 : Int) < 50 :=
  ⟨C2_monotone_no_refire.2.2.2.2 55 (AURORA_LEVELS .en) 0 50
      "Locally: 50. Something might happen. Take a break." (by decide) (by decide),
   C2_monotone_no_refire.2.2.1 55 (AURORA_LEVELS .en) 0 50
      "Locally: 50. Something might happen. Take a break." (by decide)⟩

/--
C9. Reset: `reset` zeroes both tracked levels; when both are already 0 it is
observably a no-op (it emits nothing by construction and changes no state);
`reset` is idempotent; and after a reset a check with value 55 against the
English aurora table re-emits the level-50 message.
-/
theorem C9_reset_idempotent :
    (∀ st, (reset st).last_aurora_level = 0 ∧ (reset st).last_k_level = 0) ∧
    (∀ st, st.last_aurora_level = 0 → st.last_k_level = 0 → reset st = st) ∧
    (∀ st, reset (reset st) = reset st) ∧
    (∀ st, getMessageFromLevels 55 (AURORA_LEVELS .en)
        ((reset st).last_aurora_level)
      = (50, some "Locally: 50. Something might happen. Take a break.")) := by
  refine ⟨fun st => ⟨rfl, rfl⟩, ?_, fun st => rfl,
    fun st =>
      (by decide : getMessageFromLevels 55 (AURORA_LEVELS .en) 0
        = (50, some "Locally: 50. Something might happen. Take a break."))⟩
  intro st h1 h2
  cases st
  simp_all [reset]

/-- Witness for C9: resetting a concrete already-zero state is the identity. -/
theorem C9_reset_idempotent_witness :
    reset ⟨"", "", 60, 18, .pl, false, 0, 0, 0⟩
      = (⟨"", "", 60, 18, .pl, false, 0, 0, 0⟩ : AuroraState) :=
  C9_reset_idempotent.2.1 ⟨"", "", 60, 18, .pl, false, 0, 0, 0⟩ rfl rfl

/-! ### Helper lemmas about the scheduler -/

section AssocLemmas

variable {κ ν : Type} [DecidableEq κ]

/-- Unfolding `updateAssoc` at a matching head. -/
theorem updateAssoc_cons_self (tl : List (κ × ν)) (a : κ) (b v : ν) :
    updateAssoc ((a, b) :: tl) a v = (a, v) :: tl := by
  simp [updateAssoc]

/-- Unfolding `updateAssoc` at a non-matching head. -/
theorem updateAssoc_cons_ne (tl : List (κ × ν)) (a : κ) (b : ν) (k : κ)
    (v : ν) (h : ¬a = k) :
    updateAssoc ((a, b) :: tl) k v = (a, b) :: updateAssoc tl k v := by
  simp [updateAssoc, h]

/-- Looking up the updated key finds the new value. -/
theorem lookup_updateAssoc_self (l : List (κ × ν)) (k : κ) (v : ν) :
    (updateAssoc l k v).lookup k = some v := by
  induction l with
  | nil => simp [updateAssoc, List.lookup]
  | cons hd tl ih =>
    obtain ⟨k', v'⟩ := hd
    by_cases h : k' = k
    · subst h
      simp [updateAssoc, List.lookup]
    · simp only [updateAssoc, if_neg h, List.lookup]
      rw [beq_false_of_ne (Ne.symm h)]
      exact ih

/-- Looking up any other key is unaffected by the update. -/
theorem lookup_updateAssoc_ne (l : List (κ × ν)) (k : κ) (v : ν) (k' : κ)
    (h : k' ≠ k) : (updateAssoc l k v).lookup k' = l.lookup k' := by
  induction l with
  | nil => simp [updateAssoc, List.lookup, beq_false_of_ne h]
  | cons hd tl ih =>
    obtain ⟨a, b⟩ := hd
    by_cases ha : a = k
    · subst ha
      simp [updateAssoc, List.lookup, beq_false_of_ne h]
    · simp only [updateAssoc, if_neg ha, List.lookup]
      cases hne : k' == a
      · exact ih
      · rfl

/-- Updating a present key keeps the key list unchanged. -/
theorem map_fst_updateAssoc_mem (l : List (κ × ν)) (k : κ) (v : ν)
    (h : k ∈ l.map Prod.fst) :
    (updateAssoc l k v).map Prod.fst = l.map Prod.fst := by
  induction l with
  | nil => simp at h
  | cons hd tl ih =>
    obtain ⟨a, b⟩ := hd
    by_cases ha : a = k
    · subst ha
      simp [updateAssoc]
    · simp only [List.map_cons, List.mem_cons] at h
      rcases h with h | h

      · exact absurd h.symm ha
      · simp only [updateAssoc, if_neg ha, List.map_cons, ih h]

/-- Updating an absent key appends it at the end. -/
theorem map_fst_updateAssoc_not_mem (l : List (κ × ν)) (k : κ) (v : ν)
    (h : k ∉ l.map Prod.fst) :
    (updateAssoc l k v).map Prod.fst = l.map Prod.fst ++ [k] := by
  induction l with
  | nil => simp [updateAssoc]
  | cons hd tl ih =>
    obtain ⟨a, b⟩ := hd
    simp only [List.map_cons, List.mem_cons] at h
    push_neg at h
    have hak : ¬a = k := fun e => h.1 e.symm
    rw [updateAssoc_cons_ne tl a b k v hak, List.map_cons, ih h.2,
      List.map_cons, List.cons_append]

/-- A key is in the updated list iff it was present or is the updated key. -/
theorem mem_map_fst_updateAssoc (l : List (κ × ν)) (k v) (a : κ) :
    a ∈ (updateAssoc l k v).map Prod.fst ↔ a ∈ l.map Prod.fst ∨ a = k := by
  by_cases h : k ∈ l.map Prod.fst
  · rw [map_fst_updateAssoc_mem l k v h]
    constructor
    · exact Or.inl
    · rintro (ha | rfl)
      · exact ha
      · exact h
  · rw [map_fst_updateAssoc_not_mem l k v h]
    simp

/-- `updateAssoc` preserves distinctness of the keys. -/
theorem nodup_updateAssoc (l : List (κ × ν)) (k v)
    (h : (l.map Prod.fst).Nodup) :
    ((updateAssoc l k v).map Prod.fst).Nodup := by
  induction l with
  | nil => simp [updateAssoc]
  | cons hd tl ih =>
    obtain ⟨a, b⟩ := hd
    simp only [List.map_cons, List.nodup_cons] at h
    by_cases ha : a = k
    · subst ha
      rw [updateAssoc_cons_self, List.map_cons, List.nodup_cons]
      exact h
    · rw [updateAssoc_cons_ne tl a b k v ha, List.map_cons, List.nodup_cons]
      refine ⟨?_, ih h.2⟩
      rw [mem_map_fst_updateAssoc]
      rintro (hm | rfl)
      · exact h.1 hm
      · exact ha rfl

/-- With distinct keys, every entry of the updated list carrying the updated
key carries the new value. -/
theorem value_updateAssoc_of_nodup (l : List (κ × ν)) (k v)
    (h : (l.map Prod.fst).Nodup) :
    ∀ p ∈ updateAssoc l k v, p.1 = k → p.2 = v := by
  induction l with
  | nil =>
    intro p hp hk
    simp only [updateAssoc, List.mem_singleton] at hp
    rw [hp]
  | cons hd tl ih =>
    obtain ⟨a, b⟩ := hd
    simp only [List.map_cons, List.nodup_cons] at h
    intro p hp hk
    by_cases ha : a = k
    · subst ha
      rw [updateAssoc_cons_self, List.mem_cons] at hp
      rcases hp with hpe | hp
      · rw [hpe]
      · exact absurd (hk ▸ (List.mem_map_of_mem Prod.fst hp)) h.1
    · rw [updateAssoc_cons_ne tl a b k v ha, List.mem_cons] at hp
      rcases hp with hpe | hp
      · exact absurd (by rw [hpe] at hk; exact hk) ha
      · exact ih h.2 p hp hk

/-- A successful lookup locates a member of the list. -/
theorem mem_of_lookup_eq_some (l : List (κ × ν)) (k : κ) (v : ν)
    (h : l.lookup k = some v) : (k, v) ∈ l := by
  induction l with
  | nil => simp [List.lookup] at h
  | cons hd tl ih =>
    obtain ⟨a, b⟩ := hd
    simp only [List.lookup] at h
    cases ha : k == a
    · rw [ha] at h
      exact List.mem_cons_of_mem _ (ih h)
    · rw [ha] at h
      obtain rfl := Option.some.inj h
      obtain rfl := eq_of_beq ha
      exact List.mem_cons_self _ _

/-- A failed lookup means no entry carries the key. -/
theorem forall_ne_of_lookup_eq_none (l : List (κ × ν)) (k : κ)
    (h : l.lookup k = none) : ∀ p ∈ l, p.1 ≠ k := by
  induction l with
  | nil => simp
  | cons hd tl ih =>
    obtain ⟨a, b⟩ := hd
    simp only [List.lookup] at h
    cases ha : k == a
    · rw [ha] at h
      intro p hp
      rcases List.mem_cons.mp hp with hpe | hp
      · rw [hpe]
        exact fun e => (ne_of_beq_false ha) e.symm
      · exact ih h p hp
    · rw [ha] at h
      exact absurd h (by simp)

end AssocLemmas

/--
The callbacks of a list of (due) events run once each, in list order,
threading the external state; results are keyed by event id.  This is the
spec-side restatement of the firing part of `Clock.make_step`.
-/
def runCallbacks : List (Int × Event σ ρ) → σ → σ × List (Int × ρ)
  | [], s => (s, [])
  | (event_id, event_data) :: rest, s =>
    let (s', r) := event_data.function s
    let (s'', rs) := runCallbacks rest s'
    (s'', (event_id, r) :: rs)

/-- Characterization of the `make_step` loop: the due events (timer strictly
positive and strictly below the current time) are rearmed to
`now + delay`, the others are untouched, and the callbacks of exactly the
due events run once each in order. -/
theorem makeStepEvents_eq (now : Int) (l : List (Int × Event σ ρ)) (s : σ) :
    makeStepEvents now l s =
      (l.map (fun p => if 0 < p.2.timer ∧ p.2.timer < now
          then (p.1, { p.2 with timer := now + p.2.delay }) else p),
       runCallbacks (l.filter
          (fun p => decide (0 < p.2.timer ∧ p.2.timer < now))) s) := by
  induction l generalizing s with
  | nil => rfl
  | cons hd tl ih =>
    obtain ⟨event_id, event_data⟩ := hd
    simp only [makeStepEvents, List.map_cons, List.filter_cons]
    by_cases h : 0 < event_data.timer ∧ event_data.timer < now
    · rw [if_pos h, decide_eq_true h]
      rcases hf : event_data.function s with ⟨s1, r⟩
      simp only [runCallbacks, hf, ih s1, if_pos h]
    · rw [if_neg h, decide_eq_false h]
      simp only [ih s, if_neg h, Bool.false_eq_true, if_false]

/-- The result dict of running callbacks is keyed by exactly the ids of the
events run, in order. -/
theorem runCallbacks_ids (l : List (Int × Event σ ρ)) (s : σ) :
    ((runCallbacks l s).2).map Prod.fst = l.map Prod.fst := by
  induction l generalizing s with
  | nil => rfl
  | cons hd tl ih =>
    obtain ⟨event_id, event_data⟩ := hd
    rcases hf : event_data.function s with ⟨s', r⟩
    simp only [runCallbacks, hf, List.map_cons, ih s']

/--
C3. Scheduler advance semantics: a single `make_step` fires exactly the
registered events whose timer is strictly positive and strictly less than
the current time — rearming each fired event to `current time + delay`,
leaving the others untouched, and running each fired callback once, in
order, with the results keyed by event id — and consequently an event
registered via `add` with delay `d > 0` does not fire on an advance invoked
at any time up to `registration time + d` (in particular immediately after
registration).
-/
theorem C3_advance_semantics :
    (∀ (σ ρ : Type) (c : Clock σ ρ) (now : Int) (s : σ),
       c.make_step now s =
         (⟨c.events.map (fun p => if 0 < p.2.timer ∧ p.2.timer < now
             then (p.1, { p.2 with timer := now + p.2.delay }) else p)⟩,
          runCallbacks (c.events.filter
            (fun p => decide (0 < p.2.timer ∧ p.2.timer < now))) s)) ∧
    (∀ (σ ρ : Type) (c : Clock σ ρ) (now now' event : Int) (f : σ → σ × ρ)
       (d : Int) (s : σ),
       0 < d → now' ≤ now + d → (c.events.map Prod.fst).Nodup →
       event ∉ (((c.add now event f d).make_step now' s).2.2).map Prod.fst) := by
  constructor
  · intro σ ρ c now s
    simp only [Clock.make_step, makeStepEvents_eq]
  · intro σ ρ c now now' event f d s hd hle hnd hmem
    have hres : ((c.add now event f d).make_step now' s).2.2
        = (runCallbacks ((c.add now event f d).events.filter
            (fun p => decide (0 < p.2.timer ∧ p.2.timer < now'))) s).2 := by
      simp only [Clock.make_step, makeStepEvents_eq]
    rw [hres, runCallbacks_ids] at hmem
    obtain ⟨q, hq, hq1⟩ := List.mem_map.mp hmem
    have hqf := List.mem_filter.mp hq
    have hq2 : q.2 = ⟨calculateNextExecutionTime now d, f, d⟩ :=
      value_updateAssoc_of_nodup c.events event
        ⟨calculateNextExecutionTime now d, f, d⟩ hnd q hqf.1 hq1
    have hdue := of_decide_eq_true hqf.2
    rw [hq2, show calculateNextExecutionTime now d = now + d from if_pos hd]
      at hdue
    exact absurd hdue.2 (not_lt.mpr hle)

/-- Witness for C3: an event added to the empty clock with delay 10 at time
100 does not fire on an advance at time 100. -/
theorem C3_advance_semantics_witness :
    1 ∉ ((Clock.make_step
        ((Clock.init : Clock Unit Unit).add 100 1 (fun s => (s, ())) 10)
        100 ()).2.2).map Prod.fst :=
  C3_advance_semantics.2 Unit Unit Clock.init 100 100 1 (fun s => (s, ())) 10 ()
    (by decide) (by decide) List.nodup_nil

/--
C6. `Clock.set` on an event id that was never added hits a `KeyError`
(modelled by `none`) and so leaves the registered events unchanged, while
`Clock.remove` on an absent id is a silent no-op.
-/
theorem C6_set_remove_absent (σ ρ : Type) (c : Clock σ ρ)
    (now event delay : Int) (h : c.events.lookup event = none) :
    c.set now event delay = none ∧ c.remove event = c := by
  obtain ⟨evs⟩ := c
  constructor
  · simp [Clock.set, h]
  · have hall := forall_ne_of_lookup_eq_none evs event h
    simp only [Clock.remove, Clock.mk.injEq]
    apply List.eraseP_of_forall_not
    intro a ha
    simp [hall a ha]

/-- Witness for C6: setting and removing id 1 on the empty clock. -/
theorem C6_set_remove_absent_witness :
    (Clock.init : Clock Unit Unit).set 0 1 60 = none ∧
    (Clock.init : Clock Unit Unit).remove 1 = Clock.init :=
  C6_set_remove_absent Unit Unit Clock.init 0 1 60 rfl

/-- Looking up an event after the rearm pass of `make_step` rearms exactly
the due entry, if any. -/
theorem lookup_map_snd (g : Event σ ρ → Event σ ρ)
    (l : List (Int × Event σ ρ)) (event : Int) :
    (l.map (fun p => (p.1, g p.2))).lookup event = (l.lookup event).map g := by
  induction l with
  | nil => rfl
  | cons hd tl ih =>
    obtain ⟨a, b⟩ := hd
    simp only [List.map_cons, List.lookup]
    cases ha : event == a
    · exact ih
    · rfl

theorem lookup_map_rearm (now : Int) (l : List (Int × Event σ ρ))
    (event : Int) :
    (l.map (fun p => if 0 < p.2.timer ∧ p.2.timer < now
        then (p.1, { p.2 with timer := now + p.2.delay }) else p)).lookup event
      = (l.lookup event).map (fun ev => if 0 < ev.timer ∧ ev.timer < now
          then { ev with timer := now + ev.delay } else ev) := by
  have hmap : l.map (fun p => if 0 < p.2.timer ∧ p.2.timer < now
        then (p.1, { p.2 with timer := now + p.2.delay }) else p)
      = l.map (fun p => (p.1, if 0 < p.2.timer ∧ p.2.timer < now
          then { p.2 with timer := now + p.2.delay } else p.2)) := by
    apply List.map_congr_left
    intro p hp
    by_cases h : 0 < p.2.timer ∧ p.2.timer < now
    · rw [if_pos h, if_pos h]
    · rw [if_neg h, if_neg h]
  rw [hmap]
  exact lookup_map_snd (fun ev => if 0 < ev.timer ∧ ev.timer < now
    then { ev with timer := now + ev.delay } else ev) l event

/-- A registered event that is due fires on `make_step` and is rearmed to
`now + delay`. -/
theorem make_step_fires (c : Clock σ ρ) (now : Int) (s : σ) (event : Int)
    (ev : Event σ ρ) (hlk : c.events.lookup event = some ev)
    (hdue : 0 < ev.timer ∧ ev.timer < now) :
    event ∈ ((c.make_step now s).2.2).map Prod.fst ∧
    ((c.make_step now s).1).events.lookup event
      = some { ev with timer := now + ev.delay } := by
  have hevents : ((c.make_step now s).1).events
      = c.events.map (fun p => if 0 < p.2.timer ∧ p.2.timer < now
          then (p.1, { p.2 with timer := now + p.2.delay }) else p) := by
    simp only [Clock.make_step, makeStepEvents_eq]
  have hres : ((c.make_step now s).2.2)
      = (runCallbacks (c.events.filter
          (fun p => decide (0 < p.2.timer ∧ p.2.timer < now))) s).2 := by
    simp only [Clock.make_step, makeStepEvents_eq]
  constructor
  · rw [hres, runCallbacks_ids]
    refine List.mem_map.mpr ⟨(event, ev), ?_, rfl⟩
    exact List.mem_filter.mpr
      ⟨mem_of_lookup_eq_some _ _ _ hlk, decide_eq_true hdue⟩
  · rw [hevents, lookup_map_rearm, hlk, Option.map_some', if_pos hdue]

/-- The advance times are spaced strictly more than one delay apart: each one
is strictly later than the timer the event holds when that advance runs. -/
def properlySpaced (timer d : Int) : List Int → Bool
  | [] => true
  | t :: ts => decide (timer < t) && properlySpaced (t + d) d ts

/--
Counterexample to C4 as stated: an event registered at time 100 with delay
10 (next-due 110) fires on an advance at 150 and is rearmed to 160, but the
next advance at 160 — spaced exactly `d = 10` seconds after the previous one
— fires nothing, because `make_step` requires `timer < current_time`
strictly.  The claim predicted at least one firing on every advance of this
sequence.
-/
theorem C4_boundary_counterexample :
    ((advanceTimes
        ((Clock.init : Clock Unit Unit).add 100 1 (fun s => (s, ())) 10)
        () [150, 160]).2.2).map (List.map Prod.fst) = [[1], []] := rfl

/--
C4 (amended). For every registered event with delay `d > 0` and a positive
timer, and every sequence of advance times in which each advance is strictly
later than the event's then-current next-due (equivalently: spacing strictly
greater than `d`), the event fires at least once on every advance and is
rescheduled to that advance's current time plus `d`.
-/
theorem C4_strict_spacing (σ ρ : Type) (d : Int) :
    ∀ (ts : List Int) (c : Clock σ ρ) (s : σ) (event : Int) (ev : Event σ ρ),
      c.events.lookup event = some ev → ev.delay = d → 0 < d →
      0 < ev.timer → properlySpaced ev.timer d ts = true →
      (∀ r ∈ (advanceTimes c s ts).2.2, event ∈ r.map Prod.fst) ∧
      ((advanceTimes c s ts).1).events.lookup event
        = some { ev with timer := (ts.getLast?.getD (ev.timer - d)) + d } := by
  intro ts
  induction ts with
  | nil =>
    intro c s event ev hlk hdel hd ht _
    refine ⟨by simp [advanceTimes], ?_⟩
    simp only [advanceTimes, List.getLast?_nil, Option.getD_none]
    rw [hlk, Int.sub_add_cancel]
  | cons t ts ih =>
    intro c s event ev hlk hdel hd ht hsp
    simp only [properlySpaced, Bool.and_eq_true, decide_eq_true_eq] at hsp
    obtain ⟨htlt, hsp'⟩ := hsp
    obtain ⟨hfire, hlk'⟩ := make_step_fires c t s event ev hlk ⟨ht, htlt⟩
    rcases hms : c.make_step t s with ⟨c', s', res⟩
    rw [hms] at hfire hlk'
    have hih := ih c' s' event { ev with timer := t + ev.delay } hlk' hdel hd
      (add_pos (lt_trans ht htlt) (hdel ▸ hd)) (by rw [hdel]; exact hsp')
    have hadv : advanceTimes c s (t :: ts)
        = ((advanceTimes c' s' ts).1, (advanceTimes c' s' ts).2.1,
           res :: (advanceTimes c' s' ts).2.2) := by
      simp only [advanceTimes, hms]
    rw [hadv]
    constructor
    · intro r hr
      rcases List.mem_cons.mp hr with hre | hr
      · rw [hre]; exact hfire
      · exact hih.1 r hr
    · have hsub : t + ev.delay - d = t := by rw [hdel]; omega
      rw [hsub] at hih
      have hlast : (t :: ts).getLast?.getD (ev.timer - d)
          = ts.getLast?.getD t := by
        cases ts with
        | nil => rfl
        | cons b l => rfl
      rw [hlast]
      exact hih.2

/-- Witness for the amended C4: the event added at time 100 with delay 10
fires on both advances at strictly-more-than-10-apart times 111 and 122,
ending rearmed to 132. -/
theorem C4_strict_spacing_witness :
    (∀ r ∈ (advanceTimes
        ((Clock.init : Clock Unit Unit).add 100 1 (fun s => (s, ())) 10)
        () [111, 122]).2.2, 1 ∈ r.map Prod.fst) ∧
    ((advanceTimes
        ((Clock.init : Clock Unit Unit).add 100 1 (fun s => (s, ())) 10)
        () [111, 122]).1).events.lookup 1
      = some { timer := 132, function := fun s => (s, ()), delay := 10 } :=
  C4_strict_spacing Unit Unit 10 [111, 122]
    ((Clock.init : Clock Unit Unit).add 100 1 (fun s => (s, ())) 10) () 1
    ⟨110, fun s => (s, ()), 10⟩ rfl rfl (by decide) (by decide) rfl

/--
C5. `check` is not atomic on error: if the aurora evaluation has already
crossed a new threshold (emitting a message and advancing
`last_aurora_level`) and the K-index download then raises, the exception
propagates out of `check`, no push is sent, and the state keeps the advanced
`last_aurora_level`; re-evaluating the same aurora data afterwards emits
nothing, so that level is never notified until a reset.
-/
theorem C5_check_not_atomic (st st1 : AuroraState)
    (payload : Option (List (Int × Int × Int)))
    (kResponse : Except Unit (List (String × ℚ))) (pushOk : Bool) (now : Int)
    (m : String) (e : AuroraError)
    (hav : evaluate_aurora_level st payload = .ok (st1, some m))
    (hk : download_k_index_data kResponse = .error e) :
    check st (.ok payload) kResponse pushOk now = (st1, .error e, false) ∧
    st.last_aurora_level < st1.last_aurora_level ∧
    evaluate_aurora_level st1 payload = .ok (st1, none) := by
  have hek : evaluate_k_index_level st1 kResponse = .error e := by
    simp only [evaluate_k_index_level, hk]
  refine ⟨by simp only [check, hav, hek], ?_, ?_⟩
  · rcases hproc : process_aurora_data payload with eproc | coords
    · rw [evaluate_aurora_level, hproc] at hav
      exact Except.noConfusion hav
    · have hav' := hav
      simp only [evaluate_aurora_level, hproc] at hav'
      rcases hg : getMessageFromLevels
          (((coords.lookup (st.longitude, st.latitude)).getD 0 : Int) : ℚ)
          (AURORA_LEVELS st.language) st.last_aurora_level with ⟨lv, msg⟩
      rw [hg, Except.ok.injEq, Prod.mk.injEq] at hav'
      obtain ⟨hst, hmsg⟩ := hav'
      subst hst
      subst hmsg
      exact (gmfl_some_gt _ _ _ _ _ hg).1
  · rcases hproc : process_aurora_data payload with eproc | coords
    · rw [evaluate_aurora_level, hproc] at hav
      exact Except.noConfusion hav
    · have hav' := hav
      simp only [evaluate_aurora_level, hproc] at hav'
      rcases hg : getMessageFromLevels
          (((coords.lookup (st.longitude, st.latitude)).getD 0 : Int) : ℚ)
          (AURORA_LEVELS st.language) st.last_aurora_level with ⟨lv, msg⟩
      rw [hg, Except.ok.injEq, Prod.mk.injEq] at hav'
      obtain ⟨hst, hmsg⟩ := hav'
      subst hst
      subst hmsg
      have h2 := gmfl_repeat_none _ _ _ _ _ (tables_sorted st.language).1 hg
      have h1 := gmfl_none_fst _ _ _ h2
      simp only [evaluate_aurora_level, hproc]
      rw [show getMessageFromLevels
          (((coords.lookup (st.longitude, st.latitude)).getD 0 : Int) : ℚ)
          (AURORA_LEVELS st.language) lv = (lv, none)
        from Prod.ext_iff.mpr ⟨h1, h2⟩]

/-- Witness for C5: a concrete crossing at local value 55 followed by a
failed K-index download. -/
theorem C5_check_not_atomic_witness :
    check ⟨"", "", 60, 18, .en, false, 0, 0, 0⟩
        (.ok (some [(18, 60, 55)])) (.error ()) true 1000
      = (⟨"", "", 60, 18, .en, false, 0, 0, 50⟩, .error .connectionError,
         false) ∧
    (0 : Int) < 50 ∧
    evaluate_aurora_level ⟨"", "", 60, 18, .en, false, 0, 0, 50⟩
        (some [(18, 60, 55)])
      = .ok (⟨"", "", 60, 18, .en, false, 0, 0, 50⟩, none) :=
  C5_check_not_atomic ⟨"", "", 60, 18, .en, false, 0, 0, 0⟩
    ⟨"", "", 60, 18, .en, false, 0, 0, 50⟩ (some [(18, 60, 55)]) (.error ())
    true 1000 "Locally: 50. Something might happen. Take a break."
    .connectionError rfl rfl

/--
C7. When the processed aurora coordinate map has no entry whose key is
exactly the configured `(longitude, latitude)` pair, the local intensity
defaults to 0 and the aurora evaluation emits no message and leaves the
state unchanged, regardless of the intensities elsewhere in the map.
-/
theorem C7_exact_match_or_zero (st : AuroraState)
    (payload : Option (List (Int × Int × Int)))
    (coords : List ((Int × Int) × Int))
    (hproc : process_aurora_data payload = .ok coords)
    (hmiss : coords.lookup (st.longitude, st.latitude) = none) :
    evaluate_aurora_level st payload = .ok (st, none) := by
  simp only [evaluate_aurora_level, hproc, hmiss]
  have hg : getMessageFromLevels (((Option.getD none 0 : Int)) : ℚ)
      (AURORA_LEVELS st.language) st.last_aurora_level
      = (st.last_aurora_level, none) := by
    apply gmfl_none_of_not_reach
    intro p hp _
    have hpos := aurora_levels_pos st.language p hp
    simp only [Option.getD_none, Int.cast_zero]
    exact_mod_cast hpos
  rw [hg]

/-- Witness for C7: configured location (18, 60), map containing only key
(1, 2). -/
theorem C7_exact_match_or_zero_witness :
    evaluate_aurora_level ⟨"", "", 60, 18, .en, false, 0, 0, 0⟩
        (some [(1, 2, 99)])
      = .ok (⟨"", "", 60, 18, .en, false, 0, 0, 0⟩, none) :=
  C7_exact_match_or_zero ⟨"", "", 60, 18, .en, false, 0, 0, 0⟩
    (some [(1, 2, 99)]) [((1, 2), 99)] rfl rfl

/--
C8. When the aurora download succeeds but the payload's coordinate list is
empty or absent, `_process_aurora_data` raises the data-integrity error and
the whole check cycle aborts before any threshold evaluation or
notification: the state is unchanged, the error propagates out of `check`,
and no push is attempted.
-/
theorem C8_empty_payload_aborts (st : AuroraState)
    (payload : Option (List (Int × Int × Int)))
    (kResponse : Except Unit (List (String × ℚ))) (pushOk : Bool) (now : Int)
    (hempty : payload.getD [] = []) :
    process_aurora_data payload = .error .noAuroraData ∧
    check st (.ok payload) kResponse pushOk now
      = (st, .error .noAuroraData, false) := by
  have hproc : process_aurora_data payload = .error .noAuroraData := by
    rw [process_aurora_data, hempty]
    rfl
  have hav : evaluate_aurora_level st payload = .error .noAuroraData := by
    rw [evaluate_aurora_level, hproc]
  exact ⟨hproc, by simp only [check, hav]⟩

/-- Witness for C8: a payload with no `coordinates` key. -/
theorem C8_empty_payload_aborts_witness :
    process_aurora_data none = .error .noAuroraData ∧
    check ⟨"", "", 60, 18, .pl, false, 0, 0, 0⟩ (.ok none) (.error ()) true 0
      = (⟨"", "", 60, 18, .pl, false, 0, 0, 0⟩, .error .noAuroraData,
         false) :=
  C8_empty_payload_aborts ⟨"", "", 60, 18, .pl, false, 0, 0, 0⟩ none
    (.error ()) true 0 rfl

/--
C10. Day/night policy: when the computed day/night boolean equals the cached
`is_day`, `update_daytime_delay` changes nothing; when it differs, `is_day`
is set to the computed value and only the reset event is re-armed — delay
`SEND_DELAY_DAY` (4 hours) when day, `SEND_DELAY` (1 hour) when night, with
next-due `now + delay` — every other event (in particular the check event)
being looked up unchanged and the set of registered event ids unchanged.
-/
theorem C10_daynight_policy (σ ρ : Type) (st : AuroraState)
    (clock : Clock σ ρ) (isDaytime : Bool) (now : Int) :
    (SEND_DELAY_DAY = 4 * 3600 ∧ SEND_DELAY = 3600) ∧
    (isDaytime = st.is_day →
       update_daytime_delay st clock isDaytime now = (st, some clock)) ∧
    (∀ ev : Event σ ρ, isDaytime ≠ st.is_day →
       clock.events.lookup RESET_EVENT = some ev →
       ∃ clock2 : Clock σ ρ,
         update_daytime_delay st clock isDaytime now
           = ({ st with is_day := isDaytime }, some clock2) ∧
         clock2.events.lookup RESET_EVENT
           = some { ev with
               delay := if isDaytime then SEND_DELAY_DAY else SEND_DELAY,
               timer :=
                 now + (if isDaytime then SEND_DELAY_DAY else SEND_DELAY) } ∧
         (∀ k, k ≠ RESET_EVENT →
            clock2.events.lookup k = clock.events.lookup k) ∧
         clock2.events.map Prod.fst = clock.events.map Prod.fst) := by
  refine ⟨⟨by decide, by decide⟩, ?_, ?_⟩
  · intro h
    simp [update_daytime_delay, h]
  · intro ev hne hlk
    have hD : (0 : Int) < if isDaytime then SEND_DELAY_DAY else SEND_DELAY := by
      cases isDaytime <;> decide
    have hcne : calculateNextExecutionTime now
        (if isDaytime then SEND_DELAY_DAY else SEND_DELAY)
        = now + (if isDaytime then SEND_DELAY_DAY else SEND_DELAY) :=
      if_pos hD
    refine ⟨⟨updateAssoc clock.events RESET_EVENT
      { ev with
          delay := if isDaytime then SEND_DELAY_DAY else SEND_DELAY,
          timer := calculateNextExecutionTime now
            (if isDaytime then SEND_DELAY_DAY else SEND_DELAY) }⟩,
      ?_, ?_, ?_, ?_⟩
    · simp only [update_daytime_delay, if_pos hne, Clock.set, hlk]
    · rw [lookup_updateAssoc_self, hcne]
    · intro k hk
      exact lookup_updateAssoc_ne clock.events RESET_EVENT _ k hk
    · apply map_fst_updateAssoc_mem
      exact List.mem_map_of_mem Prod.fst (mem_of_lookup_eq_some _ _ _ hlk)

/-- Witness for C10: a night→day flip re-arming a concretely registered
reset event. -/
theorem C10_daynight_policy_witness :
    ∃ clock2 : Clock Unit Unit,
      update_daytime_delay ⟨"", "", 60, 18, .pl, false, 0, 0, 0⟩
          ((Clock.init : Clock Unit Unit).add 0 2 (fun s => (s, ())) 3600)
          true 50
        = (⟨"", "", 60, 18, .pl, true, 0, 0, 0⟩, some clock2) ∧
      clock2.events.lookup RESET_EVENT
        = some { timer := 50 + (if true then SEND_DELAY_DAY else SEND_DELAY),
                 function := fun s => (s, ()),
                 delay := if true then SEND_DELAY_DAY else SEND_DELAY } ∧
      (∀ k, k ≠ RESET_EVENT →
         clock2.events.lookup k
           = ((Clock.init : Clock Unit Unit).add 0 2
               (fun s => (s, ())) 3600).events.lookup k) ∧
      clock2.events.map Prod.fst
        = ((Clock.init : Clock Unit Unit).add 0 2
            (fun s => (s, ())) 3600).events.map Prod.fst :=
  (C10_daynight_policy Unit Unit ⟨"", "", 60, 18, .pl, false, 0, 0, 0⟩
      ((Clock.init : Clock Unit Unit).add 0 2 (fun s => (s, ())) 3600)
      true 50).2.2
    ⟨3600, fun s => (s, ()), 3600⟩ (by decide) rfl

end Aurora
